import Mathlib

/-!
Shallow embedding of the constrained spatial sampling engine of
`src/cuspatial_synthetic_people.ipynb` (function `polygons_to_points`).

External collaborators are abstracted as inputs, faithful to their
documented semantics:
* `cupy.random.uniform(lo, hi, max_len)` is `lo + (hi - lo) * u` with
  entropy `u ∈ [0,1)` supplied by a per-round, per-slot stream;
* the cuspatial quadtree pipeline (`quadtree_on_points`,
  `join_quadtree_and_bounding_boxes`, `quadtree_point_in_polygon`) is
  modelled by its net effect: one `(point_index, polygon_index)` row per
  exact containment hit, the exact ring test being an input predicate
  `point_in_polygon`;
* geopandas `total_bounds` is the union of the per-polygon bounding boxes.

Coordinates are rationals (the float arithmetic performed by the code is
ordinary field arithmetic on the sampled values).
-/

namespace SyntheticPeople

/-- One row of the `keep_points` frame: `(x, y, geoid)`. -/
structure PtRec where
  x : ℚ
  y : ℚ
  geoid : ℕ
  deriving DecidableEq, Repr

/-- Axis-aligned bounding box, in the geopandas `total_bounds` order
`(minx, miny, maxx, maxy)`. -/
structure BBox where
  xmin : ℚ
  ymin : ℚ
  xmax : ℚ
  ymax : ℚ
  deriving DecidableEq, Repr

instance : Inhabited BBox := ⟨⟨0, 0, 0, 0⟩⟩

/-- Arguments of `polygons_to_points`, with the external geometry and
randomness collaborators abstracted as functions:
`num_points` is the per-polygon quota column `gdf[val_col]`,
`geoids` the polygon identifier array, `polygon_bboxes` the result of
`cuspatial.polygon_bounding_boxes`, `point_in_polygon p x y` the exact
ring-crossing containment test of polygon `p`, and `rngx it k` / `rngy it k`
the unit uniform drawn for slot `k` of iteration `it`. -/
structure Inputs where
  n : ℕ
  num_points : List ℕ
  geoids : List ℕ
  polygon_bboxes : List BBox
  point_in_polygon : ℕ → ℚ → ℚ → Bool
  rngx : ℕ → ℕ → ℚ
  rngy : ℕ → ℕ → ℚ
  max_depth : ℕ
  min_size : ℕ
  max_len : ℕ

/-- Union of two bounding boxes. -/
def bboxUnion (a b : BBox) : BBox :=
  ⟨min a.xmin b.xmin, min a.ymin b.ymin, max a.xmax b.xmax, max a.ymax b.ymax⟩

/-- Model of `gdf.iloc[keep_polygons.get()].total_bounds`: the union of the
bounding boxes of the currently active polygons. -/
def total_bounds (inp : Inputs) (keep : List ℕ) : BBox :=
  match keep.map (fun p => inp.polygon_bboxes.getD p default) with
  | [] => default
  | b :: bs => bs.foldl bboxUnion b

/-- Model of one draw of `cupy.random.uniform(lo, hi)`: `lo + (hi - lo) * u`
with `u ∈ [0,1)`. -/
def uniform (lo hi u : ℚ) : ℚ := lo + (hi - lo) * u

/-- Model of the candidate sampler of one round:
`xs = cupy.random.uniform(x_min, x_max, max_len)` and likewise `ys`,
returned as a list of `max_len` coordinate pairs. -/
def sample_candidates (inp : Inputs) (bb : BBox) (it : ℕ) : List (ℚ × ℚ) :=
  (List.range inp.max_len).map fun k =>
    (uniform bb.xmin bb.xmax (inp.rngx it k), uniform bb.ymin bb.ymax (inp.rngy it k))

/-- Python float floor division `a // b`. -/
def fdiv (a b : ℚ) : ℚ := ((⌊a / b⌋ : ℤ) : ℚ)

/-- Model of the scale computation of the round:
`scale = max(max_px - min_px, max_py - min_py) // (1 << max_depth)`. -/
def computeScale (range_x range_y : ℚ) (max_depth : ℕ) : ℚ :=
  fdiv (max range_x range_y) ((2 : ℚ) ^ max_depth)

/-- Minimum of a cupy array given as a list (the code only applies it to
nonempty arrays; the empty case is given a junk value). -/
def cupyMin (l : List ℚ) : ℚ :=
  match l with
  | [] => 0
  | x :: xs => xs.foldl min x

/-- Maximum of a cupy array given as a list. -/
def cupyMax (l : List ℚ) : ℚ :=
  match l with
  | [] => 0
  | x :: xs => xs.foldl max x

/-- The quadtree `scale` value computed in one round of the loop, from the
extent of the freshly sampled candidates. -/
def round_scale (inp : Inputs) (keep : List ℕ) (it : ℕ) : ℚ :=
  let cands := sample_candidates inp (total_bounds inp keep) it
  let xs := cands.map Prod.fst
  let ys := cands.map Prod.snd
  computeScale (cupyMax xs - cupyMin xs) (cupyMax ys - cupyMin ys) inp.max_depth

/-- Net effect of the cuspatial quadtree pipeline on one round's candidates:
the rows `(point_index, polygon_index)` of `result`, one row for every
candidate/polygon pair passing the exact containment test.  The broad-phase
bounding-box join only prunes pairs that cannot pass the exact test, so it
does not change this row set. -/
def quadtree_point_in_polygon (inp : Inputs) (cands : List (ℚ × ℚ)) : List (ℕ × ℕ) :=
  (List.range cands.length).flatMap fun k =>
    (List.range inp.n).filterMap fun p =>
      let c := cands.getD k (0, 0)
      if inp.point_in_polygon p c.1 c.2 then some (k, p) else none

/-- Mutable state of the while-loop of `polygons_to_points`. -/
structure LoopState where
  gen_points : List ℕ
  keep_points : List PtRec
  keep_polygons : List ℕ
  it : ℕ
  deriving DecidableEq, Repr

/-- State on entry to the while-loop: no points generated, empty pool, and
`keep_polygons = cupy.arange(len(gdf))`. -/
def initState (inp : Inputs) : LoopState :=
  ⟨List.replicate inp.n 0, [], List.range inp.n, 0⟩

/-- Number of rows of a result row list matched to polygon index `p`. -/
def countPid (rows : List (ℕ × ℕ)) (p : ℕ) : ℕ :=
  rows.countP fun r => r.2 == p

/-- Number of records of a point pool carrying geoid `g` (the value of
`count_points['x'][g]` when `g` is present, `0` otherwise). -/
def countGeoid (recs : List PtRec) (g : ℕ) : ℕ :=
  recs.countP fun r => r.geoid == g

/-- Candidates of the round executed from state `s`: the loop increments
`it`, takes the bounds of the active polygons and samples `max_len` points. -/
def roundCands (inp : Inputs) (s : LoopState) : List (ℚ × ℚ) :=
  sample_candidates inp (total_bounds inp s.keep_polygons) (s.it + 1)

/-- Join result rows of the round executed from state `s`. -/
def roundRows (inp : Inputs) (s : LoopState) : List (ℕ × ℕ) :=
  quadtree_point_in_polygon inp (roundCands inp s)

/-- Join rows surviving `cupy.isin(result_array, keep_polygons)`: only rows
whose polygon is still active are kept. -/
def roundFiltered (inp : Inputs) (s : LoopState) : List (ℕ × ℕ) :=
  (roundRows inp s).filter fun r => s.keep_polygons.contains r.2

/-- Records appended to `keep_points` by the round executed from state `s`:
`x = xs[point_index]`, `y = ys[point_index]`, `geoid = geoids[polygon_index]`. -/
def roundRecs (inp : Inputs) (s : LoopState) : List PtRec :=
  (roundFiltered inp s).map fun r =>
    let c := (roundCands inp s).getD r.1 (0, 0)
    PtRec.mk c.1 c.2 (inp.geoids.getD r.2 0)

/-- One execution of the while-loop body: sample candidates over the active
bounding box, run the quadtree join, keep the rows whose polygon is still
active, append the matching records to `keep_points`, bump `gen_points` by
the per-polygon row counts of the filtered result, and recompute
`keep_polygons = where(num_points - gen_points > 0)`. -/
def runRound (inp : Inputs) (s : LoopState) : LoopState :=
  let gen := (List.range inp.n).map fun i =>
    s.gen_points.getD i 0 + countPid (roundFiltered inp s) i
  let keep := (List.range inp.n).filter fun i => gen.getD i 0 < inp.num_points.getD i 0
  ⟨gen, s.keep_points ++ roundRecs inp s, keep, s.it + 1⟩

/-- Outcome of running the while-loop under a round budget: either the
active set emptied (the only exit the code has) or the budget ran out with
the loop still iterating. -/
inductive LoopResult where
  | done : LoopState → LoopResult
  | running : LoopState → LoopResult
  deriving DecidableEq, Repr

/-- The while-loop `while keep_polygons.shape[0] > 0`, observed for at most
`fuel` rounds.  The code itself has no round bound: `fuel` is only the
observation window of the model. -/
def runLoop (inp : Inputs) : ℕ → LoopState → LoopResult
  | 0, s => if s.keep_polygons = [] then .done s else .running s
  | fuel + 1, s =>
    if s.keep_polygons = [] then .done s else runLoop inp fuel (runRound inp s)

/-- State after `k` unconditional executions of the loop body. -/
def iterRounds (inp : Inputs) : ℕ → LoopState
  | 0 => initState inp
  | k + 1 => runRound inp (iterRounds inp k)

/-- Failures the exact-selection tail of the code can actually raise:
an out-of-bounds `sorted_points.iloc[range(point_id, point_id + q)]`
(IndexError) or a missing `count_points['x'][geoid]` key (KeyError). -/
inductive SelErr where
  | indexError
  | keyError
  deriving DecidableEq, Repr

/-- Rows of `pool` carrying each geoid of `gs`, in the order of `gs`. -/
def blocksOf (pool : List PtRec) (gs : List ℕ) : List PtRec :=
  gs.flatMap fun g => pool.filter fun r => r.geoid == g

/-- The distinct geoids present in the pool, in increasing order (the group
keys of `keep_points.groupby('geoid')`). -/
def presentGeoids (pool : List PtRec) : List ℕ :=
  List.insertionSort (· ≤ ·) (pool.map PtRec.geoid).dedup

/-- Model of `keep_points.sort_values(by='geoid').reset_index(drop=True)`:
a key sort by geoid, i.e. the rows grouped by increasing geoid, each group
keeping its generation order. -/
def sort_values_geoid (pool : List PtRec) : List PtRec :=
  blocksOf pool (presentGeoids pool)

/-- The per-polygon selection walk: for each `(q, g)` pair (expected count
and geoid of one polygon, in polygon order) take
`sorted_points.iloc[range(point_id, point_id + q)]`, then advance
`point_id` by `count_points['x'][g]`.  A nonempty out-of-bounds `iloc`
raises IndexError; a geoid absent from the pool raises KeyError. -/
def selGo (sorted pool : List PtRec) :
    List (ℕ × ℕ) → ℕ → List PtRec → Except SelErr (List PtRec)
  | [], _, acc => .ok acc
  | (q, g) :: rest, point_id, acc =>
    if q ≠ 0 ∧ sorted.length < point_id + q then .error .indexError
    else if countGeoid pool g = 0 then .error .keyError
    else selGo sorted pool rest (point_id + countGeoid pool g)
      (acc ++ (sorted.drop point_id).take q)

/-- The exact-selection tail of `polygons_to_points`: sort the pool by
geoid, then walk the polygons in order, selecting each quota-sized slice. -/
def selectExact (num_points geoids : List ℕ) (pool : List PtRec) :
    Except SelErr (List PtRec) :=
  selGo (sort_values_geoid pool) pool (num_points.zip geoids) 0 []

/-- Overall outcome of `polygons_to_points` under a round budget. -/
inductive RunOutcome where
  | ok : List PtRec → RunOutcome
  | selErr : SelErr → RunOutcome
  | looping : LoopState → RunOutcome
  deriving DecidableEq, Repr

/-- The whole of `polygons_to_points`: run the convergence loop, then, if
the active set emptied, run the exact selection tail. -/
def polygons_to_points (inp : Inputs) (fuel : ℕ) : RunOutcome :=
  match runLoop inp fuel (initState inp) with
  | .running s => .looping s
  | .done s =>
    match selectExact inp.num_points inp.geoids s.keep_points with
    | .ok recs => .ok recs
    | .error e => .selErr e

/-- Well-formedness of the inputs as built by the notebook: the quota and
geoid columns cover the polygon table, and `geoids = cupy.arange(len(gdf))`
sliced per batch is strictly increasing. -/
def InputsWF (inp : Inputs) : Prop :=
  inp.num_points.length = inp.n ∧ inp.geoids.length = inp.n ∧
    List.Pairwise (· < ·) inp.geoids

instance (inp : Inputs) : Decidable (InputsWF inp) := by
  unfold InputsWF; infer_instance

/-- Loop invariant: `gen_points[i]` counts the pool records carrying
`geoids[i]`, pool geoids come from the geoid column, and an empty active
set means every quota is covered. -/
def Inv (inp : Inputs) (s : LoopState) : Prop :=
  s.gen_points.length = inp.n ∧
    (∀ i, i < inp.n →
      s.gen_points.getD i 0 = countGeoid s.keep_points (inp.geoids.getD i 0)) ∧
    (∀ r ∈ s.keep_points, r.geoid ∈ inp.geoids) ∧
    (s.keep_polygons = [] →
      ∀ i, i < inp.n → inp.num_points.getD i 0 ≤ s.gen_points.getD i 0)

/-- One-polygon batch on the unit square whose single candidate per round
always passes the exact test: the loop converges in one round. -/
def sqInput : Inputs :=
  ⟨1, [1], [0], [⟨0, 0, 1, 1⟩], fun _ _ _ => true, fun _ _ => 0, fun _ _ => 0, 1, 1, 1⟩

/-- One-polygon batch whose polygon contains no candidate at all: the active
set never shrinks. -/
def noHitInput : Inputs :=
  ⟨1, [1], [0], [⟨0, 0, 1, 1⟩], fun _ _ _ => false, fun _ _ => 0, fun _ _ => 0, 1, 1, 1⟩

/-- Batch whose single polygon has a bounding box collapsed to the point
(5, 5) and contains no candidate: the sampling region has zero area. -/
def degInput : Inputs :=
  ⟨1, [1], [0], [⟨5, 5, 5, 5⟩], fun _ _ _ => false, fun _ _ => 1/2, fun _ _ => 1/2, 1, 1, 1⟩

/-- Batch of unit extent run at quadtree depth 10: the candidate range stays
far below 2^10, so the floor-divided scale collapses to zero. -/
def smallScaleInput : Inputs :=
  ⟨1, [1], [0], [⟨0, 0, 1, 1⟩], fun _ _ _ => false, fun _ _ => 0,
    fun _ k => if k == 1 then 1/2 else 0, 10, 1, 2⟩

/-- Batch with a single quota-zero polygon whose exact test accepts every
candidate. -/
def quotaZeroInput : Inputs :=
  ⟨1, [0], [0], [⟨0, 0, 1, 1⟩], fun _ _ _ => true, fun _ _ => 0, fun _ _ => 0, 1, 1, 1⟩

/-- Two-polygon batch in which both exact tests accept every candidate: the
non-overlap invariant is violated and each candidate matches twice. -/
def overlapInput : Inputs :=
  ⟨2, [1, 1], [0, 1], [⟨0, 0, 1, 1⟩, ⟨0, 0, 1, 1⟩], fun _ _ _ => true,
    fun _ _ => 0, fun _ _ => 0, 1, 1, 1⟩

/-- Pool in which polygon 0 (quota 2) owns a single record while polygon 1
(quota 1) owns two: the pool of polygon 0 is short of its quota. -/
def shortPool : List PtRec := [⟨0, 0, 0⟩, ⟨1, 1, 1⟩, ⟨2, 2, 1⟩]

/-- Pool with exactly one record for the single polygon of quota 1. -/
def okPool : List PtRec := [⟨0, 0, 0⟩]

/-- Batch with no polygons at all: the loop converges without a round. -/
def emptyInput : Inputs :=
  ⟨0, [], [], [], fun _ _ _ => false, fun _ _ => 0, fun _ _ => 0, 1, 1, 0⟩

/-! Basic lemmas about the round. -/

lemma getD_map_range {α : Type} (f : ℕ → α) {n i : ℕ} (hi : i < n) (d : α) :
    ((List.range n).map f).getD i d = f i := by
  rw [List.getD_eq_getElem?_getD]
  simp [List.getElem?_range hi]

lemma snd_lt_of_mem_rows {inp : Inputs} {cands : List (ℚ × ℚ)} {r : ℕ × ℕ}
    (h : r ∈ quadtree_point_in_polygon inp cands) : r.2 < inp.n := by
  unfold quadtree_point_in_polygon at h
  simp only [List.mem_flatMap, List.mem_range, List.mem_filterMap] at h
  obtain ⟨k, hk, p, hp, hif⟩ := h
  split at hif
  · cases hif; exact hp
  · cases hif

lemma snd_lt_of_mem_filtered {inp : Inputs} {s : LoopState} {r : ℕ × ℕ}
    (h : r ∈ roundFiltered inp s) : r.2 < inp.n :=
  snd_lt_of_mem_rows (List.mem_of_mem_filter h)

lemma geoids_getD_inj {inp : Inputs} (hwf : InputsWF inp) {i j : ℕ}
    (hi : i < inp.n) (hj : j < inp.n)
    (h : inp.geoids.getD i 0 = inp.geoids.getD j 0) : i = j := by
  obtain ⟨-, hlen, hpair⟩ := hwf
  have hi' : i < inp.geoids.length := by omega
  have hj' : j < inp.geoids.length := by omega
  rw [List.getD_eq_getElem _ _ hi', List.getD_eq_getElem _ _ hj'] at h
  by_contra hne
  rcases Nat.lt_or_ge i j with hlt | hge
  · exact absurd h (ne_of_lt (List.pairwise_iff_getElem.mp hpair i j (by omega) (by omega) hlt))
  · have hlt : j < i := by omega
    exact absurd h.symm
      (ne_of_lt (List.pairwise_iff_getElem.mp hpair j i (by omega) (by omega) hlt))

lemma countGeoid_map_mk {inp : Inputs} (hwf : InputsWF inp) (cands : List (ℚ × ℚ))
    {rows : List (ℕ × ℕ)} (hrows : ∀ r ∈ rows, r.2 < inp.n) {i : ℕ} (hi : i < inp.n) :
    countGeoid (rows.map fun r =>
        PtRec.mk (cands.getD r.1 (0, 0)).1 (cands.getD r.1 (0, 0)).2 (inp.geoids.getD r.2 0))
      (inp.geoids.getD i 0) = countPid rows i := by
  unfold countGeoid countPid
  rw [List.countP_map]
  apply List.countP_congr
  intro r hr
  simp only [Function.comp_apply, beq_iff_eq]
  constructor
  · intro h
    exact geoids_getD_inj hwf (hrows r hr) hi h
  · intro h
    rw [h]

lemma countGeoid_roundRecs {inp : Inputs} (hwf : InputsWF inp) (s : LoopState)
    {i : ℕ} (hi : i < inp.n) :
    countGeoid (roundRecs inp s) (inp.geoids.getD i 0) = countPid (roundFiltered inp s) i :=
  countGeoid_map_mk hwf _ (fun _ hr => snd_lt_of_mem_filtered hr) hi

lemma runRound_gen_getD (inp : Inputs) (s : LoopState) {i : ℕ} (hi : i < inp.n) :
    (runRound inp s).gen_points.getD i 0 =
      s.gen_points.getD i 0 + countPid (roundFiltered inp s) i :=
  getD_map_range _ hi 0

lemma runRound_keep_points (inp : Inputs) (s : LoopState) :
    (runRound inp s).keep_points = s.keep_points ++ roundRecs inp s := rfl

lemma runRound_keep_polygons (inp : Inputs) (s : LoopState) {i : ℕ} :
    i ∈ (runRound inp s).keep_polygons ↔
      i < inp.n ∧ (runRound inp s).gen_points.getD i 0 < inp.num_points.getD i 0 := by
  have h : (runRound inp s).keep_polygons = (List.range inp.n).filter fun j =>
      (runRound inp s).gen_points.getD j 0 < inp.num_points.getD j 0 := rfl
  rw [h, List.mem_filter, List.mem_range, decide_eq_true_eq]

/-! Loop invariant lemmas. -/

lemma inv_init (inp : Inputs) : Inv inp (initState inp) := by
  refine ⟨by simp [initState], fun i hi => ?_, by simp [initState], fun hk i hi => ?_⟩
  · show (List.replicate inp.n 0).getD i 0 = countGeoid [] _
    rw [List.getD_eq_getElem _ _ (by simpa using hi), List.getElem_replicate]
    rfl
  · have h0 : inp.n = 0 := List.range_eq_nil.mp hk
    omega

lemma inv_step {inp : Inputs} (hwf : InputsWF inp) {s : LoopState} (h : Inv inp s) :
    Inv inp (runRound inp s) := by
  obtain ⟨hlen, hcnt, hmem, -⟩ := h
  refine ⟨by simp [runRound], fun i hi => ?_, fun r hr => ?_, fun hk i hi => ?_⟩
  · rw [runRound_gen_getD inp s hi, runRound_keep_points, hcnt i hi]
    unfold countGeoid
    rw [List.countP_append]
    have hrec := countGeoid_roundRecs hwf s hi
    unfold countGeoid at hrec
    omega
  · rw [runRound_keep_points] at hr
    rcases List.mem_append.mp hr with h1 | h2
    · exact hmem r h1
    · unfold roundRecs at h2
      obtain ⟨q, hq, rfl⟩ := List.mem_map.mp h2
      have hp : q.2 < inp.geoids.length := by
        have h1 := snd_lt_of_mem_filtered hq
        have h2 := hwf.2.1
        omega
      show inp.geoids.getD q.2 0 ∈ inp.geoids
      rw [List.getD_eq_getElem _ _ hp]
      exact List.getElem_mem hp
  · by_contra hlt
    push_neg at hlt
    have hk2 : i ∈ (runRound inp s).keep_polygons :=
      (runRound_keep_polygons inp s).mpr ⟨hi, by omega⟩
    rw [hk] at hk2
    cases hk2

lemma runLoop_done_inv (inp : Inputs) (P : LoopState → Prop)
    (hstep : ∀ t, P t → P (runRound inp t)) :
    ∀ (fuel : ℕ) (s s' : LoopState), P s → runLoop inp fuel s = .done s' →
      P s' ∧ s'.keep_polygons = [] := by
  intro fuel
  induction fuel with
  | zero =>
    intro s s' hP h
    rw [runLoop] at h
    split at h
    · cases h
      exact ⟨hP, by assumption⟩
    · cases h
  | succ m ih =>
    intro s s' hP h
    rw [runLoop] at h
    split at h
    · cases h
      exact ⟨hP, by assumption⟩
    · exact ih _ _ (hstep s hP) h

lemma runLoop_done_keep_nil {inp : Inputs} {fuel : ℕ} {s s' : LoopState}
    (h : runLoop inp fuel s = .done s') : s'.keep_polygons = [] :=
  (runLoop_done_inv inp (fun _ => True) (fun _ _ => trivial) fuel s s' trivial h).2

/-! Lemmas about the exact-selection tail. -/

lemma countGeoid_eq_length_filter (pool : List PtRec) (g : ℕ) :
    countGeoid pool g = (pool.filter fun r => r.geoid == g).length :=
  List.countP_eq_length_filter _ _

lemma selGo_ok_pos {sorted pool : List PtRec} :
    ∀ (qgs : List (ℕ × ℕ)) (pid : ℕ) (acc out : List PtRec),
      selGo sorted pool qgs pid acc = .ok out → ∀ qg ∈ qgs, 0 < countGeoid pool qg.2 := by
  intro qgs
  induction qgs with
  | nil =>
    intro pid acc out h qg hqg
    cases hqg
  | cons qg0 rest ih =>
    intro pid acc out h qg hqg
    obtain ⟨q, g⟩ := qg0
    rw [selGo] at h
    split at h
    · cases h
    · split at h
      · cases h
      · rcases List.mem_cons.mp hqg with rfl | hmem
        · exact Nat.pos_of_ne_zero (by assumption)
        · exact ih _ _ _ h qg hmem

lemma selGo_spec (pool : List PtRec) :
    ∀ (qgs : List (ℕ × ℕ)) (sorted : List PtRec) (pid : ℕ) (acc : List PtRec),
      sorted.drop pid = blocksOf pool (qgs.map Prod.snd) →
      pid ≤ sorted.length →
      (∀ qg ∈ qgs, qg.1 ≤ countGeoid pool qg.2 ∧ 0 < countGeoid pool qg.2) →
      selGo sorted pool qgs pid acc =
        .ok (acc ++ qgs.flatMap fun qg =>
          (pool.filter fun r => r.geoid == qg.2).take qg.1) := by
  intro qgs
  induction qgs with
  | nil =>
    intro sorted pid acc hdrop hpid hcnt
    simp [selGo]
  | cons qg0 rest ih =>
    intro sorted pid acc hdrop hpid hcnt
    obtain ⟨q, g⟩ := qg0
    obtain ⟨hq0, hpos0⟩ := hcnt (q, g) (List.mem_cons_self _ _)
    have hq : q ≤ countGeoid pool g := hq0
    have hpos : 0 < countGeoid pool g := hpos0
    have hlenB : countGeoid pool g = (pool.filter fun r => r.geoid == g).length :=
      countGeoid_eq_length_filter pool g
    have hbc : blocksOf pool (((q, g) :: rest).map Prod.snd) =
        (pool.filter fun r => r.geoid == g) ++ blocksOf pool (rest.map Prod.snd) := by
      simp [blocksOf]
    rw [hbc] at hdrop
    have hdlen : sorted.length - pid = (pool.filter fun r => r.geoid == g).length +
        (blocksOf pool (rest.map Prod.snd)).length := by
      have h := congrArg List.length hdrop
      rw [List.length_drop, List.length_append] at h
      exact h
    have hdrop2 : sorted.drop (pid + countGeoid pool g) =
        blocksOf pool (rest.map Prod.snd) := by
      rw [← List.drop_drop, hdrop, hlenB, List.drop_left]
    have htake : (sorted.drop pid).take q = (pool.filter fun r => r.geoid == g).take q := by
      rw [hdrop, List.take_append_eq_append_take]
      have hq0 : q - (pool.filter fun r => r.geoid == g).length = 0 := by omega
      rw [hq0, List.take_zero, List.append_nil]
    rw [selGo, if_neg (by rintro ⟨h1, h2⟩; omega), if_neg (by omega)]
    rw [ih sorted (pid + countGeoid pool g) (acc ++ (sorted.drop pid).take q) hdrop2
      (by omega) (fun qg hqg => hcnt qg (List.mem_cons_of_mem _ hqg))]
    rw [htake, List.flatMap_cons, List.append_assoc]

lemma presentGeoids_eq {geoids : List ℕ} {pool : List PtRec}
    (hsorted : List.Pairwise (· < ·) geoids)
    (hmem : ∀ r ∈ pool, r.geoid ∈ geoids)
    (hpos : ∀ g ∈ geoids, 0 < countGeoid pool g) :
    presentGeoids pool = geoids := by
  have hnd1 : (presentGeoids pool).Nodup :=
    (List.perm_insertionSort _ _).symm.nodup (List.nodup_dedup _)
  have hnd2 : geoids.Nodup := hsorted.imp ne_of_lt
  apply List.eq_of_perm_of_sorted (r := (· ≤ ·))
  · rw [List.perm_ext_iff_of_nodup hnd1 hnd2]
    intro g
    unfold presentGeoids
    rw [(List.perm_insertionSort _ _).mem_iff, List.mem_dedup, List.mem_map]
    constructor
    · rintro ⟨r, hr, rfl⟩
      exact hmem r hr
    · intro hg
      have h0 := hpos g hg
      rw [countGeoid, List.countP_pos_iff] at h0
      obtain ⟨r, hr, hbeq⟩ := h0
      exact ⟨r, hr, by simpa using hbeq⟩
  · exact List.sorted_insertionSort _ _
  · exact hsorted.imp le_of_lt

lemma getD_pair_mem_zip {l₁ l₂ : List ℕ} {i : ℕ} (h1 : i < l₁.length) (h2 : i < l₂.length) :
    (l₁.getD i 0, l₂.getD i 0) ∈ l₁.zip l₂ := by
  rw [List.getD_eq_getElem _ _ h1, List.getD_eq_getElem _ _ h2]
  have hz : i < (l₁.zip l₂).length := by
    rw [List.length_zip]
    omega
  rw [← List.getElem_zip (h := hz)]
  exact List.getElem_mem hz

lemma zip_snd_mem (l₁ l₂ : List ℕ) (hlen : l₂.length ≤ l₁.length) {g : ℕ} (hg : g ∈ l₂) :
    ∃ q, (q, g) ∈ l₁.zip l₂ := by
  obtain ⟨i, hi, rfl⟩ := List.mem_iff_getElem.mp hg
  have h1 : i < l₁.length := by omega
  refine ⟨l₁.getD i 0, ?_⟩
  rw [← List.getD_eq_getElem l₂ 0 hi]
  exact getD_pair_mem_zip h1 hi

lemma mem_zip_getD {l₁ l₂ : List ℕ} {qg : ℕ × ℕ} (h : qg ∈ l₁.zip l₂) :
    ∃ i, i < l₁.length ∧ i < l₂.length ∧ l₁.getD i 0 = qg.1 ∧ l₂.getD i 0 = qg.2 := by
  obtain ⟨i, hi, hget⟩ := List.mem_iff_getElem.mp h
  have hlen := hi
  rw [List.length_zip] at hlen
  have h1 : i < l₁.length := by omega
  have h2 : i < l₂.length := by omega
  have hz := List.getElem_zip (h := hi)
  rw [hz] at hget
  refine ⟨i, h1, h2, ?_, ?_⟩
  · rw [List.getD_eq_getElem _ _ h1, ← hget]
  · rw [List.getD_eq_getElem _ _ h2, ← hget]

lemma pairwise_zip_snd : ∀ (l₁ l₂ : List ℕ), List.Pairwise (· < ·) l₂ →
    List.Pairwise (fun a b : ℕ × ℕ => a.2 ≠ b.2) (l₁.zip l₂)
  | [], _, _ => by simp
  | _ :: _, [], _ => by simp
  | a :: l₁, b :: l₂, h => by
    rw [List.zip_cons_cons, List.pairwise_cons]
    rw [List.pairwise_cons] at h
    obtain ⟨hb, htail⟩ := h
    refine ⟨fun p hp => ?_, pairwise_zip_snd l₁ l₂ htail⟩
    obtain ⟨x, y⟩ := p
    have hy := (List.of_mem_zip hp).2
    exact ne_of_lt (hb _ hy)

lemma countGeoid_take_block (pool : List PtRec) (g h q : ℕ) (hne : g ≠ h) :
    countGeoid ((pool.filter fun r => r.geoid == h).take q) g = 0 := by
  rw [countGeoid, List.countP_eq_zero]
  intro r hr
  have hr2 := (List.mem_filter.mp (List.mem_of_mem_take hr)).2
  simp only [beq_iff_eq] at hr2 ⊢
  omega

lemma countGeoid_take_block_self (pool : List PtRec) {g q : ℕ}
    (hq : q ≤ countGeoid pool g) :
    countGeoid ((pool.filter fun r => r.geoid == g).take q) g = q := by
  rw [countGeoid, List.countP_eq_length.mpr, List.length_take]
  · have hlen := countGeoid_eq_length_filter pool g
    omega
  · intro r hr
    exact (List.mem_filter.mp (List.mem_of_mem_take hr)).2

lemma countGeoid_flatMap_zero (pool : List PtRec) :
    ∀ (qgs : List (ℕ × ℕ)) (g : ℕ), (∀ qg ∈ qgs, g ≠ qg.2) →
      countGeoid (qgs.flatMap fun qg =>
        (pool.filter fun r => r.geoid == qg.2).take qg.1) g = 0
  | [], g, _ => by simp [countGeoid]
  | ⟨q₀, g₀⟩ :: rest, g, h => by
    simp only [List.flatMap_cons, countGeoid, List.countP_append]
    have h1 := countGeoid_take_block pool g g₀ q₀ (h (q₀, g₀) (List.mem_cons_self _ _))
    have h2 := countGeoid_flatMap_zero pool rest g
      (fun qg hqg => h qg (List.mem_cons_of_mem _ hqg))
    rw [countGeoid] at h1 h2
    omega

lemma countGeoid_flatMap_take (pool : List PtRec) :
    ∀ (qgs : List (ℕ × ℕ)), qgs.Pairwise (fun a b => a.2 ≠ b.2) →
      (∀ qg ∈ qgs, qg.1 ≤ countGeoid pool qg.2) →
      ∀ (q g : ℕ), (q, g) ∈ qgs →
      countGeoid (qgs.flatMap fun qg =>
        (pool.filter fun r => r.geoid == qg.2).take qg.1) g = q
  | [], _, _, _, _, hmem => by cases hmem
  | ⟨q₀, g₀⟩ :: rest, hp, hc, q, g, hmem => by
    rw [List.pairwise_cons] at hp
    simp only [List.flatMap_cons, countGeoid, List.countP_append]
    rcases List.mem_cons.mp hmem with heq | hmem2
    · obtain ⟨rfl, rfl⟩ := Prod.mk.injEq .. |>.mp heq
      have hq : q ≤ countGeoid pool g := hc (q, g) (List.mem_cons_self _ _)
      have hchunk := countGeoid_take_block_self pool hq
      have hrest := countGeoid_flatMap_zero pool rest g
        (fun qg hqg => hp.1 qg hqg)
      rw [countGeoid] at hchunk hrest
      omega
    · have hne : g ≠ g₀ := fun hgg => hp.1 (q, g) hmem2 hgg.symm
      have hchunk := countGeoid_take_block pool g g₀ q₀ hne
      have hrest := countGeoid_flatMap_take pool rest hp.2
        (fun qg hqg => hc qg (List.mem_cons_of_mem _ hqg)) q g hmem2
      rw [countGeoid] at hchunk hrest
      omega

lemma selectExact_spec {num_points geoids : List ℕ} {pool : List PtRec}
    (hlen : geoids.length ≤ num_points.length)
    (hsorted : List.Pairwise (· < ·) geoids)
    (hmem : ∀ r ∈ pool, r.geoid ∈ geoids)
    (hcnt : ∀ qg ∈ num_points.zip geoids,
      qg.1 ≤ countGeoid pool qg.2 ∧ 0 < countGeoid pool qg.2)
    (hcover : ∀ g ∈ geoids, 0 < countGeoid pool g) :
    selectExact num_points geoids pool =
      .ok ((num_points.zip geoids).flatMap fun qg =>
        (pool.filter fun r => r.geoid == qg.2).take qg.1) := by
  unfold selectExact
  have h0 := selGo_spec pool (num_points.zip geoids) (sort_values_geoid pool) 0 []
  rw [List.nil_append] at h0
  apply h0
  · rw [List.drop_zero]
    unfold sort_values_geoid
    rw [presentGeoids_eq hsorted hmem hcover]
    rw [List.map_snd_zip _ _ hlen]
  · exact Nat.zero_le _
  · exact hcnt

/-! Quota exactness of a successful run. -/

lemma run_ok_counts {inp : Inputs} (hwf : InputsWF inp) {fuel : ℕ} {recs : List PtRec}
    (h : polygons_to_points inp fuel = .ok recs) {i : ℕ} (hi : i < inp.n) :
    countGeoid recs (inp.geoids.getD i 0) = inp.num_points.getD i 0 := by
  obtain ⟨hqlen, hglen, hpair⟩ := hwf
  unfold polygons_to_points at h
  cases hloop : runLoop inp fuel (initState inp) with
  | running s =>
    rw [hloop] at h
    cases h
  | done s =>
    rw [hloop] at h
    have hinv := runLoop_done_inv inp (Inv inp)
      (fun t ht => inv_step ⟨hqlen, hglen, hpair⟩ ht) fuel _ _ (inv_init inp) hloop
    obtain ⟨⟨hlen, hcnt, hmem, hfull⟩, hknil⟩ := hinv
    have hquota : ∀ j, j < inp.n →
        inp.num_points.getD j 0 ≤ countGeoid s.keep_points (inp.geoids.getD j 0) := by
      intro j hj
      rw [← hcnt j hj]
      exact hfull hknil j hj
    dsimp only at h
    cases hsel : selectExact inp.num_points inp.geoids s.keep_points with
    | error e =>
      rw [hsel] at h
      cases h
    | ok out =>
      rw [hsel] at h
      cases h
      have hsel' : selGo (sort_values_geoid s.keep_points) s.keep_points
          (inp.num_points.zip inp.geoids) 0 [] = .ok recs := hsel
      have hpos := selGo_ok_pos _ _ _ _ hsel'
      have hcnt2 : ∀ qg ∈ inp.num_points.zip inp.geoids,
          qg.1 ≤ countGeoid s.keep_points qg.2 ∧ 0 < countGeoid s.keep_points qg.2 := by
        intro qg hqg
        obtain ⟨j, hj1, hj2, he1, he2⟩ := mem_zip_getD hqg
        refine ⟨?_, hpos qg hqg⟩
        rw [← he1, ← he2]
        exact hquota j (by omega)
      have hcover : ∀ g ∈ inp.geoids, 0 < countGeoid s.keep_points g := by
        intro g hg
        obtain ⟨qq, hqq⟩ := zip_snd_mem inp.num_points inp.geoids (by omega) hg
        exact hpos _ hqq
      have hspec := selectExact_spec (by omega) hpair hmem hcnt2 hcover
      have hout := hsel.symm.trans hspec
      injection hout with hout
      rw [hout]
      exact countGeoid_flatMap_take s.keep_points _ (pairwise_zip_snd _ _ hpair)
        (fun qg hqg => (hcnt2 qg hqg).1) _ _ (getD_pair_mem_zip (by omega) (by omega))

/-! Lemmas for the pool-freeze property. -/

lemma gen_mono (inp : Inputs) (s : LoopState) {i : ℕ} (hi : i < inp.n) :
    s.gen_points.getD i 0 ≤ (runRound inp s).gen_points.getD i 0 := by
  rw [runRound_gen_getD inp s hi]
  omega

lemma mem_of_contains {l : List ℕ} {a : ℕ} (h : l.contains a = true) : a ∈ l := by
  simpa using h

lemma countPid_filtered_zero (inp : Inputs) {s : LoopState} {i : ℕ}
    (h : i ∉ s.keep_polygons) : countPid (roundFiltered inp s) i = 0 := by
  rw [countPid, List.countP_eq_zero]
  intro r hr
  have hk := (List.mem_filter.mp hr).2
  simp only [beq_iff_eq]
  intro hri
  exact h (hri ▸ mem_of_contains hk)

lemma pool_frozen_round {inp : Inputs} (hwf : InputsWF inp) {s : LoopState} {i : ℕ}
    (hi : i < inp.n) (h : i ∉ s.keep_polygons) :
    countGeoid (runRound inp s).keep_points (inp.geoids.getD i 0) =
      countGeoid s.keep_points (inp.geoids.getD i 0) := by
  rw [runRound_keep_points]
  unfold countGeoid
  rw [List.countP_append]
  have h1 := countGeoid_roundRecs hwf s hi
  have h2 := countPid_filtered_zero inp h
  unfold countGeoid at h1
  omega

lemma not_keep_of_ge {inp : Inputs} {s : LoopState} {i : ℕ}
    (h : inp.num_points.getD i 0 ≤ (runRound inp s).gen_points.getD i 0) :
    i ∉ (runRound inp s).keep_polygons := by
  intro hmem
  have hk := (runRound_keep_polygons inp s).mp hmem
  omega

lemma iter_gen_mono (inp : Inputs) {i : ℕ} (hi : i < inp.n) {k j : ℕ} (hkj : k ≤ j) :
    (iterRounds inp k).gen_points.getD i 0 ≤ (iterRounds inp j).gen_points.getD i 0 := by
  induction hkj with
  | refl => exact le_refl _
  | step hm ih =>
    exact le_trans ih (gen_mono inp _ hi)

lemma iter_pool_frozen {inp : Inputs} (hwf : InputsWF inp) {i : ℕ} (hi : i < inp.n)
    {k : ℕ} (hq : inp.num_points.getD i 0 ≤ (iterRounds inp (k + 1)).gen_points.getD i 0)
    {j : ℕ} (hj : k + 1 ≤ j) :
    countGeoid (iterRounds inp j).keep_points (inp.geoids.getD i 0) =
      countGeoid (iterRounds inp (k + 1)).keep_points (inp.geoids.getD i 0) := by
  obtain ⟨d, rfl⟩ := Nat.exists_eq_add_of_le hj
  clear hj
  induction d with
  | zero => rfl
  | succ e ih =>
    have harr : k + 1 + (e + 1) = (k + 1 + e) + 1 := by omega
    rw [harr]
    have hgen : inp.num_points.getD i 0 ≤ (iterRounds inp (k + 1 + e)).gen_points.getD i 0 :=
      le_trans hq (iter_gen_mono inp hi (by omega))
    have harr2 : k + 1 + e = (k + e) + 1 := by omega
    rw [harr2] at hgen
    have hnk : i ∉ (iterRounds inp ((k + e) + 1)).keep_polygons := by
      show i ∉ (runRound inp (iterRounds inp (k + e))).keep_polygons
      exact not_keep_of_ge hgen
    rw [← harr2] at hnk
    show countGeoid (runRound inp (iterRounds inp (k + 1 + e))).keep_points _ = _
    rw [pool_frozen_round hwf hi hnk]
    exact ih

/-! Concrete loop executions that never converge. -/

lemma noHit_round (t : ℕ) :
    runRound noHitInput ⟨[0], [], [0], t⟩ = ⟨[0], [], [0], t + 1⟩ := rfl

lemma noHit_stuck : ∀ (fuel t : ℕ),
    runLoop noHitInput fuel ⟨[0], [], [0], t⟩ = .running ⟨[0], [], [0], t + fuel⟩ := by
  intro fuel
  induction fuel with
  | zero =>
    intro t
    rfl
  | succ m ih =>
    intro t
    rw [runLoop, if_neg (by simp), noHit_round, ih]
    have h : t + 1 + m = t + (m + 1) := by omega
    rw [h]

lemma noHit_init : initState noHitInput = ⟨[0], [], [0], 0⟩ := rfl

lemma deg_round (t : ℕ) :
    runRound degInput ⟨[0], [], [0], t⟩ = ⟨[0], [], [0], t + 1⟩ := rfl

lemma deg_stuck : ∀ (fuel t : ℕ),
    runLoop degInput fuel ⟨[0], [], [0], t⟩ = .running ⟨[0], [], [0], t + fuel⟩ := by
  intro fuel
  induction fuel with
  | zero =>
    intro t
    rfl
  | succ m ih =>
    intro t
    rw [runLoop, if_neg (by simp), deg_round, ih]
    have h : t + 1 + m = t + (m + 1) := by omega
    rw [h]

lemma deg_init : initState degInput = ⟨[0], [], [0], 0⟩ := rfl

/-! Lemmas about the uniform sampler. -/

lemma uniform_mem {lo hi u : ℚ} (hlohi : lo ≤ hi) (h0 : 0 ≤ u) (h1 : u < 1) :
    lo ≤ uniform lo hi u ∧ uniform lo hi u ≤ hi := by
  unfold uniform
  constructor
  · nlinarith
  · nlinarith

lemma uniform_degenerate (lo u : ℚ) : uniform lo lo u = lo := by
  unfold uniform
  ring

/-- Evaluation of the square-input pipeline: one round accepts the single
candidate (0, 0) and the selector returns it. -/
lemma sq_run : polygons_to_points sqInput 2 = .ok [⟨0, 0, 0⟩] := by
  norm_num [polygons_to_points, runLoop, runRound, roundCands, roundRows, roundFiltered,
    roundRecs, initState, sqInput, total_bounds, sample_candidates, uniform,
    quadtree_point_in_polygon, countPid, countGeoid, selectExact, selGo,
    sort_values_geoid, presentGeoids, blocksOf, List.insertionSort, List.orderedInsert,
    List.range_succ, List.dedup_cons_of_not_mem, List.filterMap_cons, List.filter_cons,
    List.replicate, List.replicate_succ]

/-! Claim theorems. -/

/-- C1: for every polygon of a batch processed by `polygons_to_points` with a
per-polygon quota column, a returned record set contains exactly `quota(p)`
records carrying the geoid of polygon `p`. -/
theorem quota_exactness_of_run (inp : Inputs) (hwf : InputsWF inp) (fuel : ℕ)
    (recs : List PtRec) (h : polygons_to_points inp fuel = .ok recs) :
    ∀ i, i < inp.n →
      countGeoid recs (inp.geoids.getD i 0) = inp.num_points.getD i 0 :=
  fun _ hi => run_ok_counts hwf h hi

/-- C1 witness: the square batch converges in one round and its single
polygon of quota 1 receives exactly one record. -/
theorem quota_exactness_of_run_witness :
    InputsWF sqInput ∧ polygons_to_points sqInput 2 = .ok [⟨0, 0, 0⟩] ∧
      countGeoid [PtRec.mk 0 0 0] (sqInput.geoids.getD 0 0) = sqInput.num_points.getD 0 0 :=
  ⟨by decide, sq_run,
    quota_exactness_of_run sqInput (by decide) 2 [PtRec.mk 0 0 0] sq_run 0 (by decide)⟩

/-- C2 counterexample: on a batch whose active set never shrinks, the loop is
still iterating after 1000 rounds, with the same active polygon; no error of
any kind is signalled, because the loop has no round counter check at all. -/
theorem no_round_cap_counterexample :
    polygons_to_points noHitInput 1000 = .looping ⟨[0], [], [0], 1000⟩ := by
  rw [polygons_to_points, noHit_init, noHit_stuck 1000 0]

/-- C2 (amended): the while-loop has no configured round cap and no
convergence failure signal: the only way it ever stops is that the active
set empties. -/
theorem loop_has_no_round_cap (inp : Inputs) (fuel : ℕ) (s s' : LoopState)
    (h : runLoop inp fuel s = .done s') : s'.keep_polygons = [] :=
  runLoop_done_keep_nil h

/-- C2 witness: the polygon-free batch stops immediately, with an empty
active set. -/
theorem loop_has_no_round_cap_witness :
    runLoop emptyInput 0 (initState emptyInput) = .done (initState emptyInput) ∧
      (initState emptyInput).keep_polygons = [] :=
  ⟨by decide, loop_has_no_round_cap emptyInput 0 (initState emptyInput)
    (initState emptyInput) (by decide)⟩

/-- C3 counterexample: a batch whose active bounding box is collapsed to the
point (5, 5) raises nothing: the loop is still iterating after 100 rounds. -/
theorem degenerate_region_counterexample :
    (total_bounds degInput (initState degInput).keep_polygons).xmin =
        (total_bounds degInput (initState degInput).keep_polygons).xmax ∧
      (total_bounds degInput (initState degInput).keep_polygons).ymin =
        (total_bounds degInput (initState degInput).keep_polygons).ymax ∧
      polygons_to_points degInput 100 = .looping ⟨[0], [], [0], 100⟩ := by
  refine ⟨rfl, rfl, ?_⟩
  rw [polygons_to_points, deg_init, deg_stuck 100 0]

/-- C3 (amended): the code has no degenerate-region check: when the active
bounding box collapses to a point, every candidate of the round equals that
point and the loop simply proceeds with the next round. -/
theorem degenerate_region_keeps_looping (inp : Inputs) (s : LoopState) (fuel : ℕ)
    (hne : s.keep_polygons ≠ [])
    (hx : (total_bounds inp s.keep_polygons).xmin = (total_bounds inp s.keep_polygons).xmax)
    (hy : (total_bounds inp s.keep_polygons).ymin = (total_bounds inp s.keep_polygons).ymax) :
    (∀ c ∈ roundCands inp s,
      c = ((total_bounds inp s.keep_polygons).xmin,
        (total_bounds inp s.keep_polygons).ymin)) ∧
      runLoop inp (fuel + 1) s = runLoop inp fuel (runRound inp s) := by
  constructor
  · intro c hc
    unfold roundCands sample_candidates at hc
    obtain ⟨k, hk, rfl⟩ := List.mem_map.mp hc
    rw [← hx, ← hy, uniform_degenerate, uniform_degenerate]
  · rw [runLoop, if_neg hne]

/-- C3 witness: the collapsed batch satisfies the degeneracy hypotheses, its
single candidate is (5, 5), and round one hands control to round two. -/
theorem degenerate_region_keeps_looping_witness :
    ((initState degInput).keep_polygons ≠ [] ∧
      (total_bounds degInput (initState degInput).keep_polygons).xmin =
        (total_bounds degInput (initState degInput).keep_polygons).xmax ∧
      (total_bounds degInput (initState degInput).keep_polygons).ymin =
        (total_bounds degInput (initState degInput).keep_polygons).ymax) ∧
      ((∀ c ∈ roundCands degInput (initState degInput),
        c = ((total_bounds degInput (initState degInput).keep_polygons).xmin,
          (total_bounds degInput (initState degInput).keep_polygons).ymin)) ∧
        runLoop degInput (0 + 1) (initState degInput) =
          runLoop degInput 0 (runRound degInput (initState degInput))) :=
  ⟨⟨by decide, rfl, rfl⟩,
    degenerate_region_keeps_looping degInput (initState degInput) 0 (by decide) rfl rfl⟩

/-- C4 counterexample: on a unit-extent batch at depth 10 the round scale is
floor-divided to exactly 0, not clamped to a strictly positive minimum. -/
theorem scale_not_clamped_counterexample :
    round_scale smallScaleInput [0] 1 = 0 ∧ ¬ 0 < round_scale smallScaleInput [0] 1 := by
  have h : round_scale smallScaleInput [0] 1 = 0 := by
    norm_num [round_scale, computeScale, sample_candidates, total_bounds, uniform,
      smallScaleInput, List.range_succ, bboxUnion, cupyMin, cupyMax, fdiv]
  exact ⟨h, by rw [h]; norm_num⟩

/-- C4 (amended): the scale is the floor division of the candidate range by
2^max_depth with no positive clamp: it is zero precisely when the range is
below 2^max_depth, and positive only once the range reaches 2^max_depth. -/
theorem scale_floor_division (range_x range_y : ℚ) (max_depth : ℕ)
    (h : 0 ≤ max range_x range_y) :
    (computeScale range_x range_y max_depth = 0 ↔
        max range_x range_y < 2 ^ max_depth) ∧
      (0 < computeScale range_x range_y max_depth ↔
        2 ^ max_depth ≤ max range_x range_y) := by
  have hpow : (0 : ℚ) < 2 ^ max_depth := by positivity
  unfold computeScale fdiv
  constructor
  · constructor
    · intro h0
      have hfl : ⌊max range_x range_y / 2 ^ max_depth⌋ = 0 := by exact_mod_cast h0
      have hlt := Int.lt_floor_add_one (max range_x range_y / 2 ^ max_depth)
      rw [hfl] at hlt
      have hq1 : max range_x range_y / 2 ^ max_depth < 1 := by
        simpa using hlt
      rw [div_lt_one hpow] at hq1
      exact hq1
    · intro hlt
      have h0 : ⌊max range_x range_y / 2 ^ max_depth⌋ = 0 := by
        rw [Int.floor_eq_zero_iff, Set.mem_Ico]
        refine ⟨div_nonneg h (le_of_lt hpow), ?_⟩
        rw [div_lt_one hpow]
        exact hlt
      rw [h0]
      norm_num
  · constructor
    · intro hpos
      have hfl : (0 : ℤ) < ⌊max range_x range_y / 2 ^ max_depth⌋ := by exact_mod_cast hpos
      have h1 : ((1 : ℤ) : ℚ) ≤ max range_x range_y / 2 ^ max_depth :=
        Int.le_floor.mp (by omega)
      rw [Int.cast_one, one_le_div hpow] at h1
      exact h1
    · intro hge
      have h1 : ((1 : ℤ) : ℚ) ≤ max range_x range_y / 2 ^ max_depth := by
        rw [Int.cast_one, one_le_div hpow]
        exact hge
      have h2 := Int.le_floor.mpr h1
      have h3 : (0 : ℤ) < ⌊max range_x range_y / 2 ^ max_depth⌋ := by omega
      exact_mod_cast h3

/-- C4 witness: a range of 1 at depth 10 is nonnegative and below 2^10, so
the computed scale is zero. -/
theorem scale_floor_division_witness :
    (0 : ℚ) ≤ max 1 1 ∧
      ((computeScale 1 1 10 = 0 ↔ max (1 : ℚ) 1 < 2 ^ 10) ∧
        (0 < computeScale 1 1 10 ↔ (2 : ℚ) ^ 10 ≤ max 1 1)) :=
  ⟨by norm_num, scale_floor_division 1 1 10 (by norm_num)⟩

/-- C5 counterexample: a polygon with quota 0 is a member of the initial
active set, so round one runs with it active and even accepts a candidate
for it. -/
theorem quota_zero_active_counterexample :
    quotaZeroInput.num_points.getD 0 0 = 0 ∧
      0 ∈ (initState quotaZeroInput).keep_polygons ∧
      countPid (roundFiltered quotaZeroInput (initState quotaZeroInput)) 0 = 1 :=
  ⟨by decide, by decide, by decide⟩

/-- C5 (amended): a quota-zero polygon is in the initial active set (the
code seeds `keep_polygons` with every polygon), leaves the active set after
any round, and receives zero output records whenever the run returns a
record set. -/
theorem quota_zero_behavior (inp : Inputs) (hwf : InputsWF inp) (i : ℕ)
    (hi : i < inp.n) (hq : inp.num_points.getD i 0 = 0) :
    i ∈ (initState inp).keep_polygons ∧
      (∀ s, i ∉ (runRound inp s).keep_polygons) ∧
      (∀ fuel recs, polygons_to_points inp fuel = .ok recs →
        countGeoid recs (inp.geoids.getD i 0) = 0) := by
  refine ⟨?_, fun s => ?_, fun fuel recs h => ?_⟩
  · show i ∈ List.range inp.n
    exact List.mem_range.mpr hi
  · intro hmem
    have hk := (runRound_keep_polygons inp s).mp hmem
    omega
  · rw [run_ok_counts hwf h hi]
    exact hq

/-- C5 witness: the quota-zero batch satisfies the hypotheses and its run
returns an empty record set. -/
theorem quota_zero_behavior_witness :
    (InputsWF quotaZeroInput ∧ 0 < quotaZeroInput.n ∧
      quotaZeroInput.num_points.getD 0 0 = 0) ∧
      (0 ∈ (initState quotaZeroInput).keep_polygons ∧
        (∀ s, 0 ∉ (runRound quotaZeroInput s).keep_polygons) ∧
        (∀ fuel recs, polygons_to_points quotaZeroInput fuel = .ok recs →
          countGeoid recs (quotaZeroInput.geoids.getD 0 0) = 0)) :=
  ⟨⟨by decide, by decide, by decide⟩,
    quota_zero_behavior quotaZeroInput (by decide) 0 (by decide) (by decide)⟩

/-- C6 counterexample: with two polygons whose exact tests both accept the
single candidate of the round, the candidate is appended twice — once per
matching polygon — not once for the lowest polygon id; the state carries no
diagnostic counter. -/
theorem double_match_counterexample :
    overlapInput.max_len = 1 ∧
      (runRound overlapInput (initState overlapInput)).keep_points.map PtRec.geoid =
        [0, 1] ∧
      (runRound overlapInput (initState overlapInput)).gen_points = [1, 1] :=
  ⟨by decide, by decide, by decide⟩

/-- C6 (amended): every exact match of an active polygon becomes its own
pool record: per round, polygon `p`'s pool grows by the full number of join
rows naming `p`, independently of how many other polygons matched the same
candidate, and no deduplication or diagnostic is applied. -/
theorem match_per_polygon_appended (inp : Inputs) (hwf : InputsWF inp)
    (s : LoopState) (p : ℕ) (hp : p < inp.n) (hkeep : p ∈ s.keep_polygons) :
    countGeoid (runRound inp s).keep_points (inp.geoids.getD p 0) =
      countGeoid s.keep_points (inp.geoids.getD p 0) +
        countPid (roundRows inp s) p := by
  rw [runRound_keep_points]
  unfold countGeoid
  rw [List.countP_append]
  have h1 := countGeoid_roundRecs hwf s hp
  unfold countGeoid at h1
  have h2 : countPid (roundFiltered inp s) p = countPid (roundRows inp s) p := by
    unfold roundFiltered countPid
    rw [List.countP_filter]
    apply List.countP_congr
    intro r hr
    simp only [Bool.and_eq_true, beq_iff_eq]
    constructor
    · rintro ⟨hh, -⟩
      exact hh
    · intro hh
      refine ⟨hh, ?_⟩
      rw [hh]
      simpa using hkeep
  omega

/-- C6 witness: in the overlapping batch, polygon 0's pool grows by exactly
its own match count of the round. -/
theorem match_per_polygon_appended_witness :
    (InputsWF overlapInput ∧ 0 < overlapInput.n ∧
      0 ∈ (initState overlapInput).keep_polygons) ∧
      countGeoid (runRound overlapInput (initState overlapInput)).keep_points
          (overlapInput.geoids.getD 0 0) =
        countGeoid (initState overlapInput).keep_points
            (overlapInput.geoids.getD 0 0) +
          countPid (roundRows overlapInput (initState overlapInput)) 0 :=
  ⟨⟨by decide, by decide, by decide⟩,
    match_per_polygon_appended overlapInput (by decide) (initState overlapInput) 0
      (by decide) (by decide)⟩

/-- C7 counterexample: polygon 0's pool (one record) is short of its quota 2,
yet the selection step returns a record set — misattributing a record of
polygon 1 to polygon 0 — instead of failing; no insufficiency error exists. -/
theorem no_insufficiency_check_counterexample :
    countGeoid shortPool 0 = 1 ∧ (1 : ℕ) < 2 ∧
      selectExact [2, 1] [0, 1] shortPool =
        .ok [⟨0, 0, 0⟩, ⟨1, 1, 1⟩, ⟨1, 1, 1⟩] :=
  ⟨by decide, by decide, rfl⟩

/-- C7 (amended): the selection step performs no per-polygon sufficiency
check: whenever every polygon's pool is nonempty and at least its quota, it
returns the per-polygon quota-sized slices without any error; a short pool is
not detected (see the counterexample), and the only failures the code can
produce are a generic index error or key error. -/
theorem selection_ok_of_sufficient_pool (num_points geoids : List ℕ)
    (pool : List PtRec) (hlen : geoids.length ≤ num_points.length)
    (hsorted : List.Pairwise (· < ·) geoids)
    (hmem : ∀ r ∈ pool, r.geoid ∈ geoids)
    (hcnt : ∀ qg ∈ num_points.zip geoids,
      qg.1 ≤ countGeoid pool qg.2 ∧ 0 < countGeoid pool qg.2)
    (hcover : ∀ g ∈ geoids, 0 < countGeoid pool g) :
    selectExact num_points geoids pool =
      .ok ((num_points.zip geoids).flatMap fun qg =>
        (pool.filter fun r => r.geoid == qg.2).take qg.1) :=
  selectExact_spec hlen hsorted hmem hcnt hcover

/-- C7 witness: a sufficient one-polygon pool selects successfully. -/
theorem selection_ok_of_sufficient_pool_witness :
    (List.Pairwise (· < ·) [0] ∧ (∀ r ∈ okPool, r.geoid ∈ [0]) ∧
      (∀ qg ∈ List.zip [1] [0],
        qg.1 ≤ countGeoid okPool qg.2 ∧ 0 < countGeoid okPool qg.2) ∧
      (∀ g ∈ [0], 0 < countGeoid okPool g)) ∧
      selectExact [1] [0] okPool = .ok [⟨0, 0, 0⟩] :=
  ⟨⟨by decide, by decide, by decide, by decide⟩,
    selection_ok_of_sufficient_pool [1] [0] okPool (by decide) (by decide)
      (by decide) (by decide) (by decide)⟩

/-- C8: the candidate sampler of a round yields exactly `max_len` points,
each inside the bounding region; a degenerate region is permitted and yields
points constant on the collapsed axis. -/
theorem sampler_contract (inp : Inputs) (bb : BBox) (it : ℕ)
    (hux : ∀ r k, 0 ≤ inp.rngx r k ∧ inp.rngx r k < 1)
    (huy : ∀ r k, 0 ≤ inp.rngy r k ∧ inp.rngy r k < 1)
    (hx : bb.xmin ≤ bb.xmax) (hy : bb.ymin ≤ bb.ymax) :
    (sample_candidates inp bb it).length = inp.max_len ∧
      (∀ c ∈ sample_candidates inp bb it,
        bb.xmin ≤ c.1 ∧ c.1 ≤ bb.xmax ∧ bb.ymin ≤ c.2 ∧ c.2 ≤ bb.ymax) ∧
      (bb.xmin = bb.xmax → ∀ c ∈ sample_candidates inp bb it, c.1 = bb.xmin) ∧
      (bb.ymin = bb.ymax → ∀ c ∈ sample_candidates inp bb it, c.2 = bb.ymin) := by
  refine ⟨by simp [sample_candidates], ?_, ?_, ?_⟩
  · intro c hc
    unfold sample_candidates at hc
    obtain ⟨k, hk, rfl⟩ := List.mem_map.mp hc
    obtain ⟨hx1, hx2⟩ := uniform_mem hx (hux it k).1 (hux it k).2
    obtain ⟨hy1, hy2⟩ := uniform_mem hy (huy it k).1 (huy it k).2
    exact ⟨hx1, hx2, hy1, hy2⟩
  · intro hdeg c hc
    unfold sample_candidates at hc
    obtain ⟨k, hk, rfl⟩ := List.mem_map.mp hc
    show uniform bb.xmin bb.xmax (inp.rngx it k) = bb.xmin
    rw [← hdeg, uniform_degenerate]
  · intro hdeg c hc
    unfold sample_candidates at hc
    obtain ⟨k, hk, rfl⟩ := List.mem_map.mp hc
    show uniform bb.ymin bb.ymax (inp.rngy it k) = bb.ymin
    rw [← hdeg, uniform_degenerate]

/-- C8 witness: the square-batch sampler, whose entropy stream is constantly
zero, satisfies the contract on the unit box. -/
theorem sampler_contract_witness :
    ((∀ r k, 0 ≤ sqInput.rngx r k ∧ sqInput.rngx r k < 1) ∧
      (∀ r k, 0 ≤ sqInput.rngy r k ∧ sqInput.rngy r k < 1) ∧
      (BBox.mk 0 0 1 1).xmin ≤ (BBox.mk 0 0 1 1).xmax ∧
      (BBox.mk 0 0 1 1).ymin ≤ (BBox.mk 0 0 1 1).ymax) ∧
      ((sample_candidates sqInput ⟨0, 0, 1, 1⟩ 1).length = sqInput.max_len ∧
        (∀ c ∈ sample_candidates sqInput ⟨0, 0, 1, 1⟩ 1,
          (BBox.mk 0 0 1 1).xmin ≤ c.1 ∧ c.1 ≤ (BBox.mk 0 0 1 1).xmax ∧
            (BBox.mk 0 0 1 1).ymin ≤ c.2 ∧ c.2 ≤ (BBox.mk 0 0 1 1).ymax) ∧
        ((BBox.mk 0 0 1 1).xmin = (BBox.mk 0 0 1 1).xmax →
          ∀ c ∈ sample_candidates sqInput ⟨0, 0, 1, 1⟩ 1, c.1 = (BBox.mk 0 0 1 1).xmin) ∧
        ((BBox.mk 0 0 1 1).ymin = (BBox.mk 0 0 1 1).ymax →
          ∀ c ∈ sample_candidates sqInput ⟨0, 0, 1, 1⟩ 1, c.2 = (BBox.mk 0 0 1 1).ymin)) :=
  ⟨⟨fun _ _ => ⟨le_refl 0, by norm_num [sqInput]⟩,
      fun _ _ => ⟨le_refl 0, by norm_num [sqInput]⟩, by norm_num, by norm_num⟩,
    sampler_contract sqInput ⟨0, 0, 1, 1⟩ 1
      (fun _ _ => ⟨le_refl 0, by norm_num [sqInput]⟩)
      (fun _ _ => ⟨le_refl 0, by norm_num [sqInput]⟩)
      (by norm_num) (by norm_num)⟩

/-- C9: the exact-selection step is a pure function of the pool and the
quota and geoid columns: two runs over identical pools select identical
output record sets. -/
theorem selection_deterministic (num_points geoids : List ℕ)
    (pool₁ pool₂ : List PtRec) (h : pool₁ = pool₂) :
    selectExact num_points geoids pool₁ = selectExact num_points geoids pool₂ := by
  rw [h]

/-- C9 witness: re-running the selector on the same concrete pool returns
the same record set. -/
theorem selection_deterministic_witness :
    okPool = okPool ∧
      selectExact [1] [0] okPool = selectExact [1] [0] okPool :=
  ⟨rfl, selection_deterministic [1] [0] okPool okPool rfl⟩

/-- C10: a join row is appended to the pool only when its polygon is in the
current active set, and once a polygon's quota is covered at the end of a
round its pool count never changes in any later round. -/
theorem pool_grows_only_while_active (inp : Inputs) (hwf : InputsWF inp) :
    (∀ s r, r ∈ (runRound inp s).keep_points →
      r ∈ s.keep_points ∨ ∃ p ∈ s.keep_polygons, r.geoid = inp.geoids.getD p 0) ∧
      (∀ k j i, k + 1 ≤ j → i < inp.n →
        inp.num_points.getD i 0 ≤ (iterRounds inp (k + 1)).gen_points.getD i 0 →
        countGeoid (iterRounds inp j).keep_points (inp.geoids.getD i 0) =
          countGeoid (iterRounds inp (k + 1)).keep_points (inp.geoids.getD i 0)) := by
  constructor
  · intro s r hr
    rw [runRound_keep_points] at hr
    rcases List.mem_append.mp hr with h1 | h2
    · exact Or.inl h1
    · right
      unfold roundRecs at h2
      obtain ⟨q, hq, rfl⟩ := List.mem_map.mp h2
      have hk := (List.mem_filter.mp hq).2
      exact ⟨q.2, mem_of_contains hk, rfl⟩
  · intro k j i hkj hi hq
    exact iter_pool_frozen hwf hi hq hkj

/-- C10 witness: the quota-zero batch satisfies the hypotheses of the
pool-growth theorem. -/
theorem pool_grows_only_while_active_witness :
    InputsWF quotaZeroInput ∧
      ((∀ s r, r ∈ (runRound quotaZeroInput s).keep_points →
        r ∈ s.keep_points ∨
          ∃ p ∈ s.keep_polygons, r.geoid = quotaZeroInput.geoids.getD p 0) ∧
        (∀ k j i, k + 1 ≤ j → i < quotaZeroInput.n →
          quotaZeroInput.num_points.getD i 0 ≤
            (iterRounds quotaZeroInput (k + 1)).gen_points.getD i 0 →
          countGeoid (iterRounds quotaZeroInput j).keep_points
              (quotaZeroInput.geoids.getD i 0) =
            countGeoid (iterRounds quotaZeroInput (k + 1)).keep_points
              (quotaZeroInput.geoids.getD i 0))) :=
  ⟨by decide, pool_grows_only_while_active quotaZeroInput (by decide)⟩

end SyntheticPeople
